import Mathlib

/-!
Shallow embedding of `src/main.py` (TextRazor): the streaming relay
inside `extract_text.generate`, the image normalizer
`process_image_file`, and the HTTP handlers `extract_text` and
`process_url`, together with proofs of the specification's claims.
-/

namespace TextRazor

/-- Token-usage accounting carried by a usage chunk
(`chunk.usage` at `src/main.py:124-130`). -/
structure Usage where
  prompt_tokens : Nat
  completion_tokens : Nat
  total_tokens : Nat
deriving DecidableEq, Repr

/-- `chunk.choices[0].delta` (`src/main.py:136`): an optional reasoning
delta (`None` modelled as `none`, also covering an absent attribute) and
an optional answer delta (`delta.content`). -/
structure Delta where
  reasoning_content : Option String
  content : Option String
deriving DecidableEq, Repr

/-- One chunk of the upstream stream (`for chunk in completion`,
`src/main.py:121`): a possibly empty `choices` list and a possibly
present `usage` attribute. -/
structure ModelChunk where
  choices : List Delta
  usage : Option Usage
deriving DecidableEq, Repr

/-- One JSON object written to the response stream by `generate`
(`src/main.py:118-164`), tagged by its shape. -/
inductive RelayEvent where
  | usageEvent (usage : Usage)
  | thinking (reasoning_content : String)
  | answering (answer_content : String)
  | completed (reasoning_content : String) (answer_content : String)
deriving DecidableEq, Repr

/-- The `status` field of the emitted JSON object
(`src/main.py:131,143,154,160`): usage events and the terminal event
both carry the string "completed". -/
def RelayEvent.status : RelayEvent → String
  | .usageEvent _ => "completed"
  | .thinking _ => "thinking"
  | .answering _ => "answering"
  | .completed _ _ => "completed"

/-- Is the event the terminal completed-shape event of
`src/main.py:159-163` (carrying both accumulators)? -/
def RelayEvent.isTerminal : RelayEvent → Bool
  | .completed _ _ => true
  | _ => false

/-- The mutable state closed over by `generate`
(`src/main.py:114-116`). -/
structure RelayState where
  reasoning_content : String
  answer_content : String
  is_answering : Bool
deriving DecidableEq, Repr

/-- `reasoning_content = ""`, `answer_content = ""`,
`is_answering = False` (`src/main.py:114-116`). -/
def initialState : RelayState := ⟨"", "", false⟩

/-- One iteration of the `for chunk in completion` loop body
(`src/main.py:121-156`): the events yielded for this chunk and the
updated state.  A chunk with no choices yields a usage event when the
usage attribute is present (`src/main.py:122-134`); otherwise the
reasoning branch (`src/main.py:139-145`) is tried before the answer
branch (`src/main.py:146-156`), the latter firing only on a truthy
(non-`None`, non-empty) `delta.content`. -/
def step (st : RelayState) (chunk : ModelChunk) : List RelayEvent × RelayState :=
  match chunk.choices with
  | [] =>
    match chunk.usage with
    | some u => ([.usageEvent u], st)
    | none => ([], st)
  | delta :: _ =>
    match delta.reasoning_content with
    | some rc =>
      ([.thinking (st.reasoning_content ++ rc)],
       { st with reasoning_content := st.reasoning_content ++ rc })
    | none =>
      match delta.content with
      | some c =>
        if c = "" then ([], st)
        else
          ([.answering (st.answer_content ++ c)],
           { st with answer_content := st.answer_content ++ c, is_answering := true })
      | none => ([], st)

/-- The whole `for` loop of `generate` (`src/main.py:121-156`): events
emitted across all chunks in arrival order, with the final state. -/
def run (st : RelayState) : List ModelChunk → List RelayEvent × RelayState
  | [] => ([], st)
  | chunk :: rest =>
    ((step st chunk).1 ++ (run (step st chunk).2 rest).1,
     (run (step st chunk).2 rest).2)

/-- The full event sequence produced by `generate`
(`src/main.py:118-164`): the loop's events followed by the terminal
completed event carrying both accumulators (`src/main.py:158-164`). -/
def generate (chunks : List ModelChunk) : List RelayEvent :=
  (run initialState chunks).1 ++
    [.completed (run initialState chunks).2.reasoning_content
                (run initialState chunks).2.answer_content]

/-- The reasoning delta a chunk carries, when any: the head choice's
`reasoning_content` when it is non-null. -/
def reasoningDelta (c : ModelChunk) : Option String :=
  match c.choices with
  | [] => none
  | d :: _ => d.reasoning_content

/-- The non-empty answer delta a chunk carries, when any: the head
choice's `content` when it is truthy (non-null and non-empty). -/
def answerDelta (c : ModelChunk) : Option String :=
  match c.choices with
  | [] => none
  | d :: _ =>
    match d.content with
    | some s => if s = "" then none else some s
    | none => none

/-- All non-null reasoning deltas of a chunk sequence, in arrival
order. -/
def reasoningDeltas (chunks : List ModelChunk) : List String :=
  chunks.filterMap reasoningDelta

/-- All non-empty answer deltas of a chunk sequence, in arrival
order. -/
def answerDeltas (chunks : List ModelChunk) : List String :=
  chunks.filterMap answerDelta

/-- Concatenation of a list of strings in order. -/
def concatAll : List String → String
  | [] => ""
  | s :: rest => s ++ concatAll rest

/-- A chunk sequence of ModelChunks as the spec's data model defines
them: each chunk carries at most one of a reasoning delta and a
(non-empty) answer delta. -/
def WellFormed (chunks : List ModelChunk) : Prop :=
  ∀ c ∈ chunks, reasoningDelta c = none ∨ answerDelta c = none

instance : DecidablePred WellFormed := fun chunks =>
  inferInstanceAs (Decidable (∀ c ∈ chunks, _ ∨ _))

/-- An in-memory bitmap as the normalizer sees it: pixel dimensions and
a color mode string (`image.mode`, `src/main.py:44`). -/
structure PILImage where
  width : Nat
  height : Nat
  mode : String
deriving DecidableEq, Repr

/-- `if image.mode != 'RGB': image = image.convert('RGB')`
(`src/main.py:44-45`); conversion changes only the mode. -/
def convertRGB (img : PILImage) : PILImage :=
  if img.mode = "RGB" then img else { img with mode := "RGB" }

/-- Modelled from the spec and the Pillow library (not part of this
repository): `Image.thumbnail` rounds the aspect-scaled dimension to
the floor or ceiling of the exact value, whichever the key prefers,
clamped to at least 1. -/
def round_aspect (q : ℚ) (key : ℤ → ℚ) : ℤ :=
  max (if key ⌊q⌋ ≤ key ⌈q⌉ then ⌊q⌋ else ⌈q⌉) 1

/-- Modelled from the spec and the Pillow library (not part of this
repository): the size computation of `image.thumbnail((mx, my))` called
at `src/main.py:48-49`.  If the image already fits in the box it is
left unchanged; otherwise the aspect ratio `w / h` is preserved up to
rounding, scaling to the bounding box. -/
def thumbnailSize (w h mx my : Nat) : Nat × Nat :=
  if w ≤ mx ∧ h ≤ my then (w, h)
  else if (w : ℚ) / (h : ℚ) ≤ (mx : ℚ) / (my : ℚ) then
    (((round_aspect ((my : ℚ) * ((w : ℚ) / (h : ℚ)))
        (fun n => |(w : ℚ) / (h : ℚ) - (n : ℚ) / (my : ℚ)|)).toNat), my)
  else
    (mx, ((round_aspect ((mx : ℚ) / ((w : ℚ) / (h : ℚ)))
        (fun n => if n = 0 then 0
                  else |(w : ℚ) / (h : ℚ) - (mx : ℚ) / (n : ℚ)|)).toNat))

/-- `process_image_file` (`src/main.py:37-59`): convert to RGB,
thumbnail into a 1024x1024 box, JPEG-encode and base64-encode (the
encoder is a parameter `enc`, uninterpreted here), and prepend the data
URL prefix (`src/main.py:56`).  Returns the data URL string and the
final image. -/
def process_image_file (img : PILImage) (enc : PILImage → String) :
    String × PILImage :=
  let image := convertRGB img
  let sz := thumbnailSize image.width image.height 1024 1024
  let image2 : PILImage := { image with width := sz.1, height := sz.2 }
  ("data:image/jpeg;base64," ++ enc image2, image2)

/-- A fixed stand-in for the JPEG+base64 encoder, used to instantiate
theorems at concrete images. -/
def constEnc : PILImage → String := fun _ => "AAAA"

/-- The JSON body of a `POST /api/extract-text` request
(`src/main.py:72-75`): each field may be absent. -/
structure ExtractRequest where
  image : Option String
  question : Option String
  enable_thinking : Option Bool
deriving DecidableEq, Repr

/-- What the `extract_text` handler does with a request: either an
early error response with its HTTP status code, or a streamed response;
the `stream` constructor records the image, question and thinking flag
passed to the gateway client (`src/main.py:84-111`) together with the
relayed events. -/
inductive ExtractResponse where
  | badRequest (error : String) (code : Nat)
  | stream (image_data : String) (question : String)
      (enable_thinking : Bool) (events : List RelayEvent)
deriving DecidableEq, Repr

/-- The `extract_text` handler (`src/main.py:68-166`): read the fields
with defaults (`src/main.py:73-75`), reject a falsy (absent or empty)
image with a 400 (`src/main.py:77-78`), otherwise invoke the gateway
and relay its chunks (`chunks` stands for the upstream stream). -/
def extract_text (data : ExtractRequest) (chunks : List ModelChunk) :
    ExtractResponse :=
  let question := data.question.getD "请提取图片中的文字内容"
  let enable_thinking := data.enable_thinking.getD false
  match data.image with
  | none => .badRequest "未提供图片数据" 400
  | some s =>
    if s = "" then .badRequest "未提供图片数据" 400
    else .stream s question enable_thinking (generate chunks)

/-- The JSON body of a `POST /api/process-url` request
(`src/main.py:206-207`). -/
structure UrlRequest where
  url : Option String
deriving DecidableEq, Repr

/-- A `process_url` response with its HTTP status code. -/
inductive UrlResponse where
  | ok (success : Bool) (image_data : String) (message : String)
  | err (error : String)
deriving DecidableEq, Repr

/-- The `process_url` handler (`src/main.py:202-216`): a falsy (absent
or empty) `url` yields a 400 error; otherwise the url is echoed back
unchanged as `image_data`. -/
def process_url (data : UrlRequest) : UrlResponse × Nat :=
  match data.url with
  | none => (.err "未提供图片URL", 400)
  | some u =>
    if u = "" then (.err "未提供图片URL", 400)
    else (.ok true u "URL处理成功", 200)

/-! ### Lemmas about a single loop iteration -/

theorem step_reasoning (st : RelayState) (c : ModelChunk) :
    (step st c).2.reasoning_content =
      match reasoningDelta c with
      | some rc => st.reasoning_content ++ rc
      | none => st.reasoning_content := by
  rcases c with ⟨choices, usage⟩
  rcases choices with _ | ⟨d, ds⟩
  · cases usage <;> rfl
  · rcases hd : d.reasoning_content with _ | rc
    · rcases hc : d.content with _ | s
      · simp [step, reasoningDelta, hd, hc]
      · by_cases hs : s = "" <;> simp [step, reasoningDelta, hd, hc, hs]
    · simp [step, reasoningDelta, hd]

theorem step_answer (st : RelayState) (c : ModelChunk)
    (hc : reasoningDelta c = none ∨ answerDelta c = none) :
    (step st c).2.answer_content =
      match answerDelta c with
      | some ac => st.answer_content ++ ac
      | none => st.answer_content := by
  rcases c with ⟨choices, usage⟩
  rcases choices with _ | ⟨d, ds⟩
  · cases usage <;> rfl
  · rcases hd : d.reasoning_content with _ | rc
    · rcases hcc : d.content with _ | s
      · simp [step, answerDelta, hd, hcc]
      · by_cases hs : s = "" <;> simp [step, answerDelta, hd, hcc, hs]
    · rcases hc with hc | hc
      · simp [reasoningDelta, hd] at hc
      · simp [answerDelta] at hc
        simp [step, answerDelta, hd, hc]

theorem step_events_thinking (st : RelayState) (c : ModelChunk) (rc : String)
    (h : reasoningDelta c = some rc) :
    (step st c).1 = [.thinking (st.reasoning_content ++ rc)] := by
  rcases c with ⟨choices, usage⟩
  rcases choices with _ | ⟨d, ds⟩
  · simp [reasoningDelta] at h
  · simp only [reasoningDelta] at h
    simp [step, h]

theorem step_events_answering (st : RelayState) (c : ModelChunk) (ac : String)
    (hr : reasoningDelta c = none) (h : answerDelta c = some ac) :
    (step st c).1 = [.answering (st.answer_content ++ ac)] := by
  rcases c with ⟨choices, usage⟩
  rcases choices with _ | ⟨d, ds⟩
  · simp [answerDelta] at h
  · simp only [reasoningDelta] at hr
    simp only [answerDelta] at h
    rcases hcc : d.content with _ | s
    · simp [hcc] at h
    · simp only [hcc] at h
      by_cases hs : s = ""
      · simp [hs] at h
      · simp [hs] at h
        subst h
        simp [step, hr, hcc, hs]

theorem step_not_terminal (st : RelayState) (c : ModelChunk) :
    ∀ e ∈ (step st c).1, e.isTerminal = false := by
  rcases c with ⟨choices, usage⟩
  rcases choices with _ | ⟨d, ds⟩
  · cases usage <;> simp [step, RelayEvent.isTerminal]
  · rcases hd : d.reasoning_content with _ | rc
    · rcases hc : d.content with _ | s
      · simp [step, hd, hc]
      · by_cases hs : s = "" <;>
          simp [step, hd, hc, hs, RelayEvent.isTerminal]
    · simp [step, hd, RelayEvent.isTerminal]

theorem step_no_answering (st : RelayState) (c : ModelChunk)
    (h : answerDelta c = none) :
    ∀ e ∈ (step st c).1, e.status ≠ "answering" := by
  rcases c with ⟨choices, usage⟩
  rcases choices with _ | ⟨d, ds⟩
  · cases usage <;> simp [step, RelayEvent.status]
  · simp only [answerDelta] at h
    rcases hd : d.reasoning_content with _ | rc
    · rcases hc : d.content with _ | s
      · simp [step, hd, hc]
      · simp only [hc] at h
        by_cases hs : s = ""
        · simp [step, hd, hc, hs]
        · simp [hs] at h
    · simp [step, hd, RelayEvent.status]

theorem step_no_thinking (st : RelayState) (c : ModelChunk)
    (h : reasoningDelta c = none) :
    ∀ e ∈ (step st c).1, e.status ≠ "thinking" := by
  rcases c with ⟨choices, usage⟩
  rcases choices with _ | ⟨d, ds⟩
  · cases usage <;> simp [step, RelayEvent.status]
  · simp only [reasoningDelta] at h
    rcases hc : d.content with _ | s
    · simp [step, h, hc]
    · by_cases hs : s = "" <;>
        simp [step, h, hc, hs, RelayEvent.status]

/-! ### Lemmas about the whole loop -/

theorem run_cons (st : RelayState) (c : ModelChunk) (rest : List ModelChunk) :
    run st (c :: rest) =
      ((step st c).1 ++ (run (step st c).2 rest).1,
       (run (step st c).2 rest).2) := rfl

theorem run_append (l1 l2 : List ModelChunk) : ∀ st : RelayState,
    run st (l1 ++ l2) =
      ((run st l1).1 ++ (run (run st l1).2 l2).1, (run (run st l1).2 l2).2) := by
  induction l1 with
  | nil => intro st; simp [run]
  | cons c rest ih =>
    intro st
    simp only [List.cons_append, run_cons, ih (step st c).2, List.append_assoc]

theorem run_reasoning : ∀ (chunks : List ModelChunk) (st : RelayState),
    (run st chunks).2.reasoning_content =
      st.reasoning_content ++ concatAll (reasoningDeltas chunks) := by
  intro chunks
  induction chunks with
  | nil =>
    intro st
    simp [run, reasoningDeltas, concatAll, String.append_empty]
  | cons c rest ih =>
    intro st
    rw [run_cons]
    simp only [ih (step st c).2]
    have hstep := step_reasoning st c
    rcases hd : reasoningDelta c with _ | rc
    · simp only [hd] at hstep
      simp [reasoningDeltas, List.filterMap_cons, hd, hstep]
    · simp only [hd] at hstep
      simp [reasoningDeltas, List.filterMap_cons, hd, hstep, concatAll,
        String.append_assoc]

theorem run_answer : ∀ (chunks : List ModelChunk) (st : RelayState),
    WellFormed chunks →
    (run st chunks).2.answer_content =
      st.answer_content ++ concatAll (answerDeltas chunks) := by
  intro chunks
  induction chunks with
  | nil =>
    intro st _
    simp [run, answerDeltas, concatAll, String.append_empty]
  | cons c rest ih =>
    intro st hwf
    have hc : reasoningDelta c = none ∨ answerDelta c = none :=
      hwf c (List.mem_cons_self c rest)
    have hrest : WellFormed rest := fun x hx => hwf x (List.mem_cons_of_mem c hx)
    rw [run_cons]
    simp only [ih (step st c).2 hrest]
    have hstep := step_answer st c hc
    rcases hd : answerDelta c with _ | ac
    · simp only [hd] at hstep
      simp [answerDeltas, List.filterMap_cons, hd, hstep]
    · simp only [hd] at hstep
      simp [answerDeltas, List.filterMap_cons, hd, hstep, concatAll,
        String.append_assoc]

theorem run_no_terminal : ∀ (l : List ModelChunk) (st : RelayState),
    ∀ e ∈ (run st l).1, e.isTerminal = false := by
  intro l
  induction l with
  | nil => intro st e he; simp [run] at he
  | cons c rest ih =>
    intro st e he
    rw [run_cons] at he
    rcases List.mem_append.mp he with h | h
    · exact step_not_terminal st c e h
    · exact ih (step st c).2 e h

/-! ### Claim theorems -/

/-- C1: for every well-formed sequence of ModelChunks (each carrying at
most one of a reasoning delta and an answer delta, as the spec's data
model requires), the final terminal event of the relay carries as
`reasoning_content` the concatenation, in arrival order, of all
non-null reasoning deltas, and as `answer_content` the concatenation of
all non-empty answer deltas. -/
theorem relay_final_event_concats (chunks : List ModelChunk)
    (h : WellFormed chunks) :
    (generate chunks).getLast? =
      some (.completed (concatAll (reasoningDeltas chunks))
                       (concatAll (answerDeltas chunks))) := by
  unfold generate
  rw [List.getLast?_concat]
  rw [run_reasoning chunks initialState, run_answer chunks initialState h]
  simp [initialState, String.empty_append]

/-- Witness for C1 at the concrete stream [reasoning "r", answer "a"]. -/
theorem relay_final_event_concats_witness :
    (generate [⟨[⟨some "r", none⟩], none⟩,
               ⟨[⟨none, some "a"⟩], none⟩]).getLast? =
      some (.completed "r" "a") := by
  have h := relay_final_event_concats
    [⟨[⟨some "r", none⟩], none⟩, ⟨[⟨none, some "a"⟩], none⟩] (by decide)
  rw [h]
  rfl

/-- C3 (corrected): exactly one terminal completed-shape event (the
final event carrying both accumulators) is emitted per relay
invocation, and the last event is of that shape.  (Counting events
whose `status` string is "completed" instead fails, because usage
events also carry that status.) -/
theorem terminal_event_unique_and_last (chunks : List ModelChunk) :
    (generate chunks).countP (fun e => e.isTerminal) = 1 ∧
    ∃ r a, (generate chunks).getLast? = some (.completed r a) := by
  constructor
  · unfold generate
    rw [List.countP_append]
    have h0 : (run initialState chunks).1.countP (fun e => e.isTerminal) = 0 :=
      List.countP_eq_zero.mpr (by
        intro e he
        simp [run_no_terminal chunks initialState e he])
    rw [h0]
    rfl
  · exact ⟨_, _, by unfold generate; rw [List.getLast?_concat]⟩

/-- Counterexample for C3 as frozen: a single usage chunk makes the
relay emit two events whose `status` is "completed", the first of which
is not the last event. -/
theorem completed_status_not_unique_cex :
    ((generate [⟨[], some ⟨1, 2, 3⟩⟩]).map RelayEvent.status) =
      ["completed", "completed"] := by decide

/-- C5: when the upstream yields zero chunks, the relay emits exactly
one event, the terminal completed event, with both accumulators the
empty string. -/
theorem empty_stream_single_completed :
    generate [] = [RelayEvent.completed "" ""] := rfl

/-- C7: a chunk whose head delta carries both a non-null reasoning
delta and a non-empty answer delta takes the reasoning branch
exclusively: only a thinking event is emitted, and the answer
accumulator (and the `is_answering` flag) are left untouched. -/
theorem reasoning_branch_precedence (st : RelayState) (rc ac : String)
    (rest : List Delta) (u : Option Usage) (hac : ac ≠ "") :
    step st ⟨⟨some rc, some ac⟩ :: rest, u⟩ =
      ([.thinking (st.reasoning_content ++ rc)],
       { st with reasoning_content := st.reasoning_content ++ rc }) := rfl

/-- Witness for C7 at the initial state with deltas "r" and "a". -/
theorem reasoning_branch_precedence_witness :
    step initialState ⟨[⟨some "r", some "a"⟩], none⟩ =
      ([RelayEvent.thinking ("" ++ "r")], ⟨"" ++ "r", "", false⟩) :=
  reasoning_branch_precedence initialState "r" "a" [] none (by decide)

/-- C8 (corrected): when `question` and `enable_thinking` are omitted,
the handler passes the defaults question = "请提取图片中的文字内容"
(the Chinese sentence for "please extract the text content from the
image") and enable_thinking = false to the gateway call.  (The default
is not the English string "extract text from image".) -/
theorem extract_text_defaults (img : String) (himg : img ≠ "")
    (chunks : List ModelChunk) :
    extract_text ⟨some img, none, none⟩ chunks =
      .stream img "请提取图片中的文字内容" false (generate chunks) := by
  simp [extract_text, himg]

/-- Counterexample for C8 as frozen: the default question actually
applied is the Chinese string, which is not "extract text from
image". -/
theorem extract_text_default_question_cex :
    extract_text ⟨some "img", none, none⟩ [] =
      .stream "img" "请提取图片中的文字内容" false [.completed "" ""] ∧
    "请提取图片中的文字内容" ≠ "extract text from image" := by decide

/-- Witness for C8's amended theorem at a concrete request. -/
theorem extract_text_defaults_witness :
    extract_text ⟨some "img", none, none⟩ [] =
      .stream "img" "请提取图片中的文字内容" false (generate []) :=
  extract_text_defaults "img" (by decide) []

/-- C9: a request with a non-empty url string gets HTTP 200 with
`image_data` exactly the input url; a request without a url gets
HTTP 400 with a non-empty error body. -/
theorem process_url_spec (u : String) (hu : u ≠ "") :
    process_url ⟨some u⟩ = (.ok true u "URL处理成功", 200) ∧
    process_url ⟨none⟩ = (.err "未提供图片URL", 400) ∧
    "未提供图片URL" ≠ "" := by
  refine ⟨?_, rfl, by decide⟩
  simp [process_url, hu]

/-- Witness for C9 at the url of the spec's example. -/
theorem process_url_spec_witness :
    process_url ⟨some "http://example.com/a.png"⟩ =
      (.ok true "http://example.com/a.png" "URL处理成功", 200) ∧
    process_url ⟨none⟩ = (.err "未提供图片URL", 400) ∧
    "未提供图片URL" ≠ "" :=
  process_url_spec "http://example.com/a.png" (by decide)

/-- C10: an empty request body (no image field) is rejected with
HTTP 400 and a non-empty error string, whatever the upstream would have
produced: the result is an early `badRequest`, so no gateway call is
made and no relay event is emitted. -/
theorem extract_text_empty_body (chunks : List ModelChunk) :
    extract_text ⟨none, none, none⟩ chunks =
      .badRequest "未提供图片数据" 400 ∧
    "未提供图片数据" ≠ "" :=
  ⟨rfl, by decide⟩

theorem run_mem_thinking : ∀ (chunks : List ModelChunk) (st : RelayState)
    (i : Nat) (hi : i < chunks.length) (rc : String),
    reasoningDelta (chunks.get ⟨i, hi⟩) = some rc →
    RelayEvent.thinking (st.reasoning_content ++
        concatAll (reasoningDeltas (chunks.take (i + 1)))) ∈ (run st chunks).1 := by
  intro chunks
  induction chunks with
  | nil => intro st i hi; exact absurd hi (by simp)
  | cons c rest ih =>
    intro st i hi rc h
    rw [run_cons]
    match i with
    | 0 =>
      have h0 : reasoningDelta c = some rc := h
      apply List.mem_append_left
      rw [step_events_thinking st c rc h0]
      simp [reasoningDeltas, List.filterMap_cons, h0, concatAll,
        String.append_empty]
    | i + 1 =>
      have h' : reasoningDelta (rest.get ⟨i, Nat.lt_of_succ_lt_succ hi⟩) = some rc := by
        simpa using h
      have ihm := ih (step st c).2 i (Nat.lt_of_succ_lt_succ hi) rc h'
      apply List.mem_append_right
      have hstep := step_reasoning st c
      rcases hd : reasoningDelta c with _ | rc0
      · simp only [hd] at hstep
        rw [hstep] at ihm
        simpa [List.take_succ_cons, reasoningDeltas, List.filterMap_cons, hd]
          using ihm
      · simp only [hd] at hstep
        rw [hstep] at ihm
        simpa [List.take_succ_cons, reasoningDeltas, List.filterMap_cons, hd,
          concatAll, String.append_assoc] using ihm

theorem run_mem_answering : ∀ (chunks : List ModelChunk) (st : RelayState)
    (i : Nat) (hi : i < chunks.length) (ac : String), WellFormed chunks →
    answerDelta (chunks.get ⟨i, hi⟩) = some ac →
    RelayEvent.answering (st.answer_content ++
        concatAll (answerDeltas (chunks.take (i + 1)))) ∈ (run st chunks).1 := by
  intro chunks
  induction chunks with
  | nil => intro st i hi; exact absurd hi (by simp)
  | cons c rest ih =>
    intro st i hi ac hwf h
    have hc : reasoningDelta c = none ∨ answerDelta c = none :=
      hwf c (List.mem_cons_self c rest)
    have hrest : WellFormed rest := fun x hx => hwf x (List.mem_cons_of_mem c hx)
    rw [run_cons]
    match i with
    | 0 =>
      have h0 : answerDelta c = some ac := h
      apply List.mem_append_left
      have hr : reasoningDelta c = none := by
        rcases hc with hc | hc
        · exact hc
        · rw [hc] at h0; exact absurd h0 (by simp)
      rw [step_events_answering st c ac hr h0]
      simp [answerDeltas, List.filterMap_cons, h0, concatAll,
        String.append_empty]
    | i + 1 =>
      have h' : answerDelta (rest.get ⟨i, Nat.lt_of_succ_lt_succ hi⟩) = some ac := by
        simpa using h
      have ihm := ih (step st c).2 i (Nat.lt_of_succ_lt_succ hi) ac hrest h'
      apply List.mem_append_right
      have hstep := step_answer st c hc
      rcases hd : answerDelta c with _ | ac0
      · simp only [hd] at hstep
        rw [hstep] at ihm
        simpa [List.take_succ_cons, answerDeltas, List.filterMap_cons, hd]
          using ihm
      · simp only [hd] at hstep
        rw [hstep] at ihm
        simpa [List.take_succ_cons, answerDeltas, List.filterMap_cons, hd,
          concatAll, String.append_assoc] using ihm

/-- C4: in a well-formed chunk sequence, every chunk carrying a
non-null reasoning delta gives rise to a thinking event carrying the
full reasoning text accumulated up to and including that chunk, and
every chunk carrying a non-empty answer delta gives rise to an
answering event carrying the full accumulated answer text. -/
theorem cumulative_event_emission (chunks : List ModelChunk)
    (h : WellFormed chunks) (i : Nat) (hi : i < chunks.length) :
    (∀ rc, reasoningDelta (chunks.get ⟨i, hi⟩) = some rc →
      RelayEvent.thinking (concatAll (reasoningDeltas (chunks.take (i + 1))))
        ∈ generate chunks) ∧
    (∀ ac, answerDelta (chunks.get ⟨i, hi⟩) = some ac →
      RelayEvent.answering (concatAll (answerDeltas (chunks.take (i + 1))))
        ∈ generate chunks) := by
  constructor
  · intro rc hrc
    have hm : RelayEvent.thinking
        ("" ++ concatAll (reasoningDeltas (chunks.take (i + 1))))
        ∈ (run initialState chunks).1 :=
      run_mem_thinking chunks initialState i hi rc hrc
    rw [String.empty_append] at hm
    exact List.mem_append_left _ hm
  · intro ac hac
    have hm : RelayEvent.answering
        ("" ++ concatAll (answerDeltas (chunks.take (i + 1))))
        ∈ (run initialState chunks).1 :=
      run_mem_answering chunks initialState i hi ac h hac
    rw [String.empty_append] at hm
    exact List.mem_append_left _ hm

/-- Witness for C4 at the stream [reasoning "r", answer "a"]: the
thinking event "r" and the answering event "a" both occur in the
output. -/
theorem cumulative_event_emission_witness :
    RelayEvent.thinking "r" ∈
      generate [⟨[⟨some "r", none⟩], none⟩, ⟨[⟨none, some "a"⟩], none⟩] ∧
    RelayEvent.answering "a" ∈
      generate [⟨[⟨some "r", none⟩], none⟩, ⟨[⟨none, some "a"⟩], none⟩] := by
  constructor
  · exact (cumulative_event_emission
      [⟨[⟨some "r", none⟩], none⟩, ⟨[⟨none, some "a"⟩], none⟩]
      (by decide) 0 (by decide)).1 "r" (by decide)
  · exact (cumulative_event_emission
      [⟨[⟨some "r", none⟩], none⟩, ⟨[⟨none, some "a"⟩], none⟩]
      (by decide) 1 (by decide)).2 "a" (by decide)

theorem run_no_answering : ∀ (l : List ModelChunk) (st : RelayState),
    (∀ c ∈ l, answerDelta c = none) →
    ∀ e ∈ (run st l).1, e.status ≠ "answering" := by
  intro l
  induction l with
  | nil => intro st _ e he; simp [run] at he
  | cons c rest ih =>
    intro st hl e he
    rw [run_cons] at he
    rcases List.mem_append.mp he with h | h
    · exact step_no_answering st c (hl c (List.mem_cons_self c rest)) e h
    · exact ih (step st c).2 (fun x hx => hl x (List.mem_cons_of_mem c hx)) e h

theorem run_no_thinking : ∀ (l : List ModelChunk) (st : RelayState),
    (∀ c ∈ l, reasoningDelta c = none) →
    ∀ e ∈ (run st l).1, e.status ≠ "thinking" := by
  intro l
  induction l with
  | nil => intro st _ e he; simp [run] at he
  | cons c rest ih =>
    intro st hl e he
    rw [run_cons] at he
    rcases List.mem_append.mp he with h | h
    · exact step_no_thinking st c (hl c (List.mem_cons_self c rest)) e h
    · exact ih (step st c).2 (fun x hx => hl x (List.mem_cons_of_mem c hx)) e h

theorem events_no_cross (L E1 E2 : List RelayEvent) (hL : L = E1 ++ E2)
    (h1 : ∀ e ∈ E1, e.status ≠ "answering")
    (h2 : ∀ e ∈ E2, e.status ≠ "thinking")
    (i j : Nat) (hij : i < j) (hi : i < L.length) (hj : j < L.length)
    (ha : (L.get ⟨i, hi⟩).status = "answering") :
    (L.get ⟨j, hj⟩).status ≠ "thinking" := by
  subst hL
  rcases lt_or_ge i E1.length with hlt | hge
  · exfalso
    have heq : (E1 ++ E2).get ⟨i, hi⟩ = E1.get ⟨i, hlt⟩ := by
      simp [List.getElem_append_left, hlt]
    rw [heq] at ha
    exact h1 _ (E1.get_mem _ _) ha
  · have hjge : E1.length ≤ j := le_trans hge hij.le
    have hj2 : j - E1.length < E2.length := by
      have hlen := hj
      simp only [List.length_append] at hlen
      omega
    have hatj : (E1 ++ E2).get ⟨j, hj⟩ = E2.get ⟨j - E1.length, hj2⟩ := by
      simp [List.getElem_append_right, hjge]
    rw [hatj]
    exact h2 _ (E2.get_mem _ _)

/-- C2 (corrected): provided every reasoning delta arrives before every
answer delta — the chunk sequence splits into a prefix carrying no
answer deltas followed by a suffix carrying no reasoning deltas — once
an event with status "answering" has been emitted, no later event has
status "thinking".  For adversarial interleavings the code does emit a
thinking event after an answering event (see the counterexample). -/
theorem relay_phase_monotone (l1 l2 : List ModelChunk)
    (h1 : ∀ c ∈ l1, answerDelta c = none)
    (h2 : ∀ c ∈ l2, reasoningDelta c = none)
    (i j : Nat) (hij : i < j)
    (hi : i < (generate (l1 ++ l2)).length)
    (hj : j < (generate (l1 ++ l2)).length)
    (ha : ((generate (l1 ++ l2)).get ⟨i, hi⟩).status = "answering") :
    ((generate (l1 ++ l2)).get ⟨j, hj⟩).status ≠ "thinking" := by
  refine events_no_cross (generate (l1 ++ l2))
    ((run initialState l1).1)
    ((run (run initialState l1).2 l2).1 ++
      [.completed (run initialState (l1 ++ l2)).2.reasoning_content
                  (run initialState (l1 ++ l2)).2.answer_content])
    ?_ ?_ ?_ i j hij hi hj ha
  · unfold generate
    rw [run_append l1 l2 initialState]
    simp [List.append_assoc, run_append]
  · exact run_no_answering l1 initialState h1
  · intro e he
    rcases List.mem_append.mp he with h | h
    · exact run_no_thinking l2 (run initialState l1).2 h2 e h
    · rcases List.mem_singleton.mp h with rfl
      simp [RelayEvent.status]

/-- Counterexample for C2 as frozen: with an answer delta followed by a
reasoning delta, the relay emits a thinking event after an answering
event. -/
theorem phase_regression_cex :
    ((generate [⟨[⟨none, some "a"⟩], none⟩,
                ⟨[⟨some "r", none⟩], none⟩]).map RelayEvent.status) =
      ["answering", "thinking", "completed"] := by decide

/-- Witness for C2's amended theorem on the stream
[reasoning "r", answer "a"], at event positions 1 < 2. -/
theorem relay_phase_monotone_witness :
    ((generate ([⟨[⟨some "r", none⟩], none⟩] ++
                [⟨[⟨none, some "a"⟩], none⟩])).get ⟨2, by decide⟩).status ≠
      "thinking" :=
  relay_phase_monotone [⟨[⟨some "r", none⟩], none⟩]
    [⟨[⟨none, some "a"⟩], none⟩]
    (by decide) (by decide) 1 2 (by decide) (by decide) (by decide) (by decide)

/-! ### Lemmas about the image normalizer -/

theorem convertRGB_width (img : PILImage) :
    (convertRGB img).width = img.width := by
  unfold convertRGB; split <;> rfl

theorem convertRGB_height (img : PILImage) :
    (convertRGB img).height = img.height := by
  unfold convertRGB; split <;> rfl

theorem round_aspect_cases (q : ℚ) (key : ℤ → ℚ) :
    round_aspect q key = max ⌊q⌋ 1 ∨ round_aspect q key = max ⌈q⌉ 1 := by
  by_cases h : key ⌊q⌋ ≤ key ⌈q⌉
  · left; simp [round_aspect, h]
  · right; simp [round_aspect, h]

theorem round_aspect_pos (q : ℚ) (key : ℤ → ℚ) : 1 ≤ round_aspect q key :=
  le_max_right _ _

theorem round_aspect_le (q : ℚ) (key : ℤ → ℚ) (B : ℤ) (hB : 1 ≤ B)
    (hq : q ≤ (B : ℚ)) : round_aspect q key ≤ B := by
  have hfl : ⌊q⌋ ≤ B := by
    have h1 : ⌊q⌋ ≤ ⌊(B : ℚ)⌋ := Int.floor_le_floor hq
    rwa [Int.floor_intCast] at h1
  have hcl : ⌈q⌉ ≤ B := Int.ceil_le.mpr hq
  rcases round_aspect_cases q key with h | h <;> rw [h]
  · exact max_le hfl hB
  · exact max_le hcl hB

theorem round_aspect_close (q : ℚ) (key : ℤ → ℚ) (hq : 0 < q) :
    |((round_aspect q key : ℤ) : ℚ) - q| ≤ 1 := by
  rcases round_aspect_cases q key with h | h <;> rw [h]
  · rcases le_or_lt 1 ⌊q⌋ with h1 | h1
    · rw [max_eq_left h1]
      have hle := Int.floor_le q
      have hgt := Int.sub_one_lt_floor q
      rw [abs_le]
      constructor <;> linarith
    · rw [max_eq_right h1.le]
      have hfl : ⌊q⌋ ≤ 0 := by omega
      have hflq : (⌊q⌋ : ℚ) ≤ 0 := by exact_mod_cast hfl
      have h2 := Int.lt_floor_add_one q
      rw [abs_le]
      push_cast
      constructor <;> linarith
  · have hc : 1 ≤ ⌈q⌉ := Int.ceil_pos.mpr hq
    rw [max_eq_left hc]
    have hle := Int.le_ceil q
    have hlt := Int.ceil_lt_add_one q
    rw [abs_le]
    constructor <;> linarith

theorem scaled_dim_props (q : ℚ) (key : ℤ → ℚ) (hq_pos : 0 < q)
    (hq_le : q ≤ 1024) :
    (round_aspect q key).toNat ≤ 1024 ∧ 1 ≤ (round_aspect q key).toNat ∧
    |(((round_aspect q key).toNat : ℕ) : ℚ) - q| ≤ 1 := by
  have hx1 : 1 ≤ round_aspect q key := round_aspect_pos q key
  have hxle : round_aspect q key ≤ 1024 :=
    round_aspect_le q key 1024 (by norm_num) (by exact_mod_cast hq_le)
  have hnn : 0 ≤ round_aspect q key := le_trans zero_le_one hx1
  have hcast : (((round_aspect q key).toNat : ℕ) : ℚ) =
      ((round_aspect q key : ℤ) : ℚ) := by
    exact_mod_cast congrArg (fun z : ℤ => (z : ℚ)) (Int.toNat_of_nonneg hnn)
  refine ⟨?_, ?_, ?_⟩
  · exact Int.toNat_le.mpr (by exact_mod_cast hxle)
  · omega
  · rw [hcast]; exact round_aspect_close q key hq_pos

theorem branchA_props (w h : Nat) (key : ℤ → ℚ) (hw : 0 < w) (hh : 0 < h)
    (hasp1 : (w : ℚ) / (h : ℚ) ≤ 1) :
    (round_aspect (((1024 : ℕ) : ℚ) * ((w : ℚ) / (h : ℚ))) key).toNat ≤ 1024 ∧
    |(((round_aspect (((1024 : ℕ) : ℚ) * ((w : ℚ) / (h : ℚ))) key).toNat : ℕ) : ℚ) * (h : ℚ) -
      ((1024 : ℕ) : ℚ) * (w : ℚ)| ≤ ((max w h : ℕ) : ℚ) := by
  have hw0 : (0 : ℚ) < (w : ℚ) := by exact_mod_cast hw
  have hh0 : (0 : ℚ) < (h : ℚ) := by exact_mod_cast hh
  set q : ℚ := ((1024 : ℕ) : ℚ) * ((w : ℚ) / (h : ℚ)) with hq_def
  have hq_pos : 0 < q := by rw [hq_def]; positivity
  have hq_le : q ≤ 1024 := by
    rw [hq_def]
    have hm := mul_le_mul_of_nonneg_left hasp1 (by norm_num : (0 : ℚ) ≤ ((1024 : ℕ) : ℚ))
    rw [mul_one] at hm
    refine le_trans hm ?_
    norm_num
  obtain ⟨hle, hpos, hclose⟩ := scaled_dim_props q key hq_pos hq_le
  refine ⟨hle, ?_⟩
  have hqh : q * (h : ℚ) = ((1024 : ℕ) : ℚ) * (w : ℚ) := by
    rw [hq_def]
    field_simp
  have key_eq :
      (((round_aspect q key).toNat : ℕ) : ℚ) * (h : ℚ) - ((1024 : ℕ) : ℚ) * (w : ℚ) =
        ((((round_aspect q key).toNat : ℕ) : ℚ) - q) * (h : ℚ) := by
    rw [sub_mul, hqh]
  rw [key_eq, abs_mul, abs_of_pos hh0]
  have hmul := mul_le_mul_of_nonneg_right hclose hh0.le
  rw [one_mul] at hmul
  refine le_trans hmul ?_
  rw [Nat.cast_max]
  exact le_max_right _ _

theorem branchB_props (w h : Nat) (key : ℤ → ℚ) (hw : 0 < w) (hh : 0 < h)
    (hasp1 : 1 < (w : ℚ) / (h : ℚ)) :
    (round_aspect (((1024 : ℕ) : ℚ) / ((w : ℚ) / (h : ℚ))) key).toNat ≤ 1024 ∧
    |((1024 : ℕ) : ℚ) * (h : ℚ) -
      (((round_aspect (((1024 : ℕ) : ℚ) / ((w : ℚ) / (h : ℚ))) key).toNat : ℕ) : ℚ) * (w : ℚ)| ≤
      ((max w h : ℕ) : ℚ) := by
  have hw0 : (0 : ℚ) < (w : ℚ) := by exact_mod_cast hw
  have hh0 : (0 : ℚ) < (h : ℚ) := by exact_mod_cast hh
  have hdiv_pos : 0 < (w : ℚ) / (h : ℚ) := by positivity
  set q : ℚ := ((1024 : ℕ) : ℚ) / ((w : ℚ) / (h : ℚ)) with hq_def
  have hq_pos : 0 < q := by rw [hq_def]; positivity
  have hq_le : q ≤ 1024 := by
    rw [hq_def]
    rw [div_le_iff₀ hdiv_pos]
    have hm := mul_le_mul_of_nonneg_left hasp1.le (by norm_num : (0 : ℚ) ≤ (1024 : ℚ))
    rw [mul_one] at hm
    refine le_trans (by norm_num) hm
  obtain ⟨hle, hpos, hclose⟩ := scaled_dim_props q key hq_pos hq_le
  refine ⟨hle, ?_⟩
  have hqw : q * (w : ℚ) = ((1024 : ℕ) : ℚ) * (h : ℚ) := by
    rw [hq_def]
    field_simp
  have key_eq :
      ((1024 : ℕ) : ℚ) * (h : ℚ) -
          (((round_aspect q key).toNat : ℕ) : ℚ) * (w : ℚ) =
        (q - (((round_aspect q key).toNat : ℕ) : ℚ)) * (w : ℚ) := by
    rw [sub_mul, hqw]
  rw [key_eq, abs_mul, abs_of_pos hw0, abs_sub_comm]
  have hmul := mul_le_mul_of_nonneg_right hclose hw0.le
  rw [one_mul] at hmul
  refine le_trans hmul ?_
  rw [Nat.cast_max]
  exact le_max_left _ _

theorem thumbnailSize_bounds (w h : Nat) (hw : 0 < w) (hh : 0 < h) :
    (thumbnailSize w h 1024 1024).1 ≤ 1024 ∧
    (thumbnailSize w h 1024 1024).2 ≤ 1024 ∧
    (w ≤ 1024 ∧ h ≤ 1024 → thumbnailSize w h 1024 1024 = (w, h)) ∧
    |((thumbnailSize w h 1024 1024).1 : ℚ) * (h : ℚ) -
      ((thumbnailSize w h 1024 1024).2 : ℚ) * (w : ℚ)| ≤
        ((max w h : ℕ) : ℚ) := by
  by_cases hin : w ≤ 1024 ∧ h ≤ 1024
  · rw [thumbnailSize, if_pos hin]
    refine ⟨hin.1, hin.2, fun _ => rfl, ?_⟩
    have hz : (((w, h).1 : ℕ) : ℚ) * (h : ℚ) - (((w, h).2 : ℕ) : ℚ) * (w : ℚ) = 0 := by
      show (w : ℚ) * (h : ℚ) - (h : ℚ) * (w : ℚ) = 0
      ring
    rw [hz, abs_zero]
    positivity
  · rw [thumbnailSize, if_neg hin]
    by_cases hasp : (w : ℚ) / (h : ℚ) ≤ ((1024 : ℕ) : ℚ) / ((1024 : ℕ) : ℚ)
    · rw [if_pos hasp]
      have hasp1 : (w : ℚ) / (h : ℚ) ≤ 1 := by
        rwa [show ((1024 : ℕ) : ℚ) / ((1024 : ℕ) : ℚ) = 1 by norm_num] at hasp
      have hb := branchA_props w h
        (fun n => |(w : ℚ) / (h : ℚ) - (n : ℚ) / ((1024 : ℕ) : ℚ)|) hw hh hasp1
      exact ⟨hb.1, le_refl 1024, fun hx => absurd hx hin, hb.2⟩
    · rw [if_neg hasp]
      have hasp1 : 1 < (w : ℚ) / (h : ℚ) := by
        rw [show ((1024 : ℕ) : ℚ) / ((1024 : ℕ) : ℚ) = 1 by norm_num] at hasp
        exact lt_of_not_le hasp
      have hb := branchB_props w h
        (fun n => if n = 0 then 0
                  else |(w : ℚ) / (h : ℚ) - ((1024 : ℕ) : ℚ) / (n : ℚ)|) hw hh hasp1
      exact ⟨le_refl 1024, hb.1, fun hx => absurd hx hin, hb.2⟩

/-- C6: for a decodable image (positive dimensions), the normalizer's
output has neither dimension above 1024, leaves images already within
bounds at their original size, preserves the aspect ratio up to
rounding (the cross products of the old and new dimensions differ by at
most one pixel row/column: |w'*h - h'*w| is at most max w h), and the
result string begins with the data URL prefix. -/
theorem image_normalizer_spec (img : PILImage) (enc : PILImage → String)
    (hw : 0 < img.width) (hh : 0 < img.height) :
    (process_image_file img enc).2.width ≤ 1024 ∧
    (process_image_file img enc).2.height ≤ 1024 ∧
    (img.width ≤ 1024 ∧ img.height ≤ 1024 →
      (process_image_file img enc).2.width = img.width ∧
      (process_image_file img enc).2.height = img.height) ∧
    |((process_image_file img enc).2.width : ℚ) * (img.height : ℚ) -
      ((process_image_file img enc).2.height : ℚ) * (img.width : ℚ)| ≤
        ((max img.width img.height : ℕ) : ℚ) ∧
    ∃ rest, (process_image_file img enc).1 = "data:image/jpeg;base64," ++ rest := by
  have hsz := thumbnailSize_bounds img.width img.height hw hh
  have hW : (process_image_file img enc).2.width =
      (thumbnailSize img.width img.height 1024 1024).1 := by
    simp [process_image_file, convertRGB_width, convertRGB_height]
  have hH : (process_image_file img enc).2.height =
      (thumbnailSize img.width img.height 1024 1024).2 := by
    simp [process_image_file, convertRGB_width, convertRGB_height]
  refine ⟨?_, ?_, ?_, ?_, ⟨enc (process_image_file img enc).2, ?_⟩⟩
  · rw [hW]; exact hsz.1
  · rw [hH]; exact hsz.2.1
  · intro hin
    have heq := hsz.2.2.1 hin
    constructor
    · rw [hW, heq]
    · rw [hH, heq]
  · rw [hW, hH]; exact hsz.2.2.2
  · rfl

/-- Witness for C6 at a 2000x1000 RGB image. -/
theorem image_normalizer_spec_witness :
    (process_image_file ⟨2000, 1000, "RGB"⟩ constEnc).2.width ≤ 1024 ∧
    (process_image_file ⟨2000, 1000, "RGB"⟩ constEnc).2.height ≤ 1024 ∧
    ((2000 : Nat) ≤ 1024 ∧ (1000 : Nat) ≤ 1024 →
      (process_image_file ⟨2000, 1000, "RGB"⟩ constEnc).2.width = 2000 ∧
      (process_image_file ⟨2000, 1000, "RGB"⟩ constEnc).2.height = 1000) ∧
    |((process_image_file ⟨2000, 1000, "RGB"⟩ constEnc).2.width : ℚ) * ((1000 : Nat) : ℚ) -
      ((process_image_file ⟨2000, 1000, "RGB"⟩ constEnc).2.height : ℚ) * ((2000 : Nat) : ℚ)| ≤
        ((max 2000 1000 : ℕ) : ℚ) ∧
    ∃ rest, (process_image_file ⟨2000, 1000, "RGB"⟩ constEnc).1 =
      "data:image/jpeg;base64," ++ rest :=
  image_normalizer_spec ⟨2000, 1000, "RGB"⟩ constEnc (by decide) (by decide)

end TextRazor
